import Mathlib

/-!
# Verification of the TaskManager core (`src/final_project/todo.py`)

Shallow embedding of the task store, its operations, the display sort and
the due-date parser, together with theorems settling the specification
claims.  Timestamps handled by the store (`created`, `completed`,
`due_date`) are modelled as integers: the store only ever compares them,
so any linearly ordered stamp is faithful.  The due-date parser, which
actually computes with calendar dates, gets its own `PyDateTime` model
further below.
-/

namespace Todo

/-- One task, mirroring class `Task` in `todo.py`: fields `created`,
`completed`, `name`, `unique_id`, `priority`, `due_date`. -/
structure Task where
  created : Int
  completed : Option Int
  name : String
  unique_id : Nat
  priority : Int
  due_date : Option Int
deriving DecidableEq

/-- The store state.  `tasks` is `Tasks.tasks`; `id_counter` is the
process-wide `Task._id_counter`; `file` is the content of the pickle file
(`none` when the file does not exist or is unreadable), holding the pair
`(tasks, last_id)` that `pickle_tasks` writes. -/
structure Tasks where
  tasks : List Task
  id_counter : Nat
  file : Option (List Task × Nat)
deriving DecidableEq

/-- The comparison behind `key=lambda t: t.created`. -/
def createdLe (a b : Task) : Prop := a.created ≤ b.created

instance : DecidableRel createdLe :=
  fun a b => inferInstanceAs (Decidable (a.created ≤ b.created))

instance : IsTotal Task createdLe := ⟨fun a b => le_total a.created b.created⟩

instance : IsTrans Task createdLe := ⟨fun _ _ _ h h2 => le_trans h h2⟩

/-- `self.tasks.sort(key=lambda t: t.created)` — a stable sort by `created`
(Python's `list.sort` is stable; `List.insertionSort` is the stable sort of
the library). -/
def sortByCreated (ts : List Task) : List Task :=
  ts.insertionSort createdLe

/-- `max((t.unique_id for t in self.tasks), default=0)` in `pickle_tasks`. -/
def lastId (ts : List Task) : Nat :=
  (ts.map Task.unique_id).foldr max 0

/-- `Tasks.pickle_tasks`: atomically writes `(self.tasks, last_id)` to the file. -/
def Tasks.pickle_tasks (s : Tasks) : Tasks :=
  { s with file := some (s.tasks, lastId s.tasks) }

/-- `Tasks._load`, run at construction: missing file gives an empty list and
leaves the counter alone; otherwise the stored pair is read, the counter
becomes `max(Task._id_counter, last_id + 1)` and the list is re-sorted by
`created`.  A corrupt file behaves like a missing one (the `except` branch
sets `tasks = []` before the counter is touched).  Returns the new
`(tasks, id_counter)` given the incoming counter value. -/
def loadFile (file : Option (List Task × Nat)) (id_counter : Nat) :
    List Task × Nat :=
  match file with
  | none => ([], id_counter)
  | some (ts, last_id) => (sortByCreated ts, max id_counter (last_id + 1))

/-- `Tasks.__init__`: load the file into a fresh store object; `id_counter`
is the value `Task._id_counter` has when the process constructs the store
(1 in a fresh process). -/
def Tasks.init (file : Option (List Task × Nat)) (id_counter : Nat) : Tasks :=
  let p := loadFile file id_counter
  ⟨p.1, p.2, file⟩

/-- `Task.__init__`: stamps `created`, takes the next counter value as
`unique_id`, and coerces a priority outside {1,2,3} to 1. -/
def Task.init (id_counter : Nat) (name : String) (priority : Int)
    (due_date : Option Int) (now : Int) : Task :=
  { created := now, completed := none, name := name, unique_id := id_counter,
    priority := if priority = 1 ∨ priority = 2 ∨ priority = 3 then priority else 1,
    due_date := due_date }

/-- `Tasks.add`: construct the task, append, re-sort by `created`, persist,
return the new task.  `now` is the construction timestamp. -/
def Tasks.add (s : Tasks) (name : String) (priority : Int)
    (due_date : Option Int) (now : Int) : Tasks × Task :=
  let t := Task.init s.id_counter name priority due_date now
  let s1 : Tasks :=
    { s with tasks := sortByCreated (s.tasks ++ [t]), id_counter := s.id_counter + 1 }
  (s1.pickle_tasks, t)

/-- The loop of `Tasks.delete`: remove the first task whose id matches,
reporting `none` when no task matches. -/
def removeFirst : List Task → Nat → Option (List Task)
  | [], _ => none
  | t :: rest, id =>
      if t.unique_id = id then some rest
      else (removeFirst rest id).map (fun ts => t :: ts)

/-- `Tasks.delete`: remove the matching task and persist; report whether a
task was found. -/
def Tasks.delete (s : Tasks) (id : Nat) : Tasks × Bool :=
  match removeFirst s.tasks id with
  | some ts => (Tasks.pickle_tasks { s with tasks := ts }, true)
  | none => (s, false)

/-- The loop of `Tasks.done`: find the first task whose id matches; if it is
not yet completed, stamp it (`mark_completed`) and report that a mutation
happened; if it is already completed leave it alone. -/
def doneAux : List Task → Nat → Int → Option (List Task × Bool)
  | [], _, _ => none
  | t :: rest, id, now =>
      if t.unique_id = id then
        match t.completed with
        | none => some (({ t with completed := some now }) :: rest, true)
        | some _ => some (t :: rest, false)
      else (doneAux rest id now).map (fun p => (t :: p.1, p.2))

/-- `Tasks.done`: returns whether the id exists; persists only when the task
was freshly marked completed.  `now` is the completion timestamp. -/
def Tasks.done (s : Tasks) (id : Nat) (now : Int) : Tasks × Bool :=
  match doneAux s.tasks id now with
  | some (ts, true) => (Tasks.pickle_tasks { s with tasks := ts }, true)
  | some (_, false) => (s, true)
  | none => (s, false)

/-- `Tasks.reset`: clear the collection, reset `Task._id_counter` to 1 and
remove the data file. -/
def Tasks.reset (_ : Tasks) : Tasks :=
  { tasks := [], id_counter := 1, file := none }

/-- The save `atexit.register(self.pickle_tasks)` schedules at construction:
it runs `pickle_tasks` on the store when the process exits normally. -/
def atExitSave (s : Tasks) : Tasks := Tasks.pickle_tasks s

/-- A concrete one-task store used to witness `done_spec`. -/
def doneSample : Tasks := ⟨[⟨0, none, "a", 1, 1, none⟩], 2, none⟩

/-- A concrete two-task store used to witness the query theorems. -/
def querySample : Tasks :=
  ⟨[⟨0, none, "Buy Milk", 1, 2, some 5⟩, ⟨1, some 9, "walk dog", 2, 1, none⟩],
    3, none⟩

/-- A concrete store reached by `add "a"`, `add "b"`, `delete 2`: the task
holding the highest assigned ID has been deleted, so the in-memory counter
(3) is ahead of every ID still present (1). -/
def roundtripSample : Tasks :=
  ((((Tasks.init none 1).add "a" 1 none 0).1.add "b" 1 none 1).1.delete 2).1

/-- Python's `str.lower()` on one character, restricted to ASCII (the only
case folding the tool's tokens and task names exercise). -/
def lowerChar (c : Char) : Char :=
  if 65 ≤ c.toNat ∧ c.toNat ≤ 90 then Char.ofNat (c.toNat + 32) else c

/-- Python's `str.lower()`. -/
def lowerStr (s : String) : String := ⟨s.toList.map lowerChar⟩

/-- Python's `str.strip()`: drop whitespace from both ends. -/
def stripStr (s : String) : String :=
  ⟨((s.toList.dropWhile Char.isWhitespace).reverse.dropWhile
      Char.isWhitespace).reverse⟩

/-- `s in t.name.lower()` for an already-lowered needle `sub`: substring
containment. -/
def nameHas (sub : String) (name : String) : Bool :=
  decide (sub.toList <:+: (lowerStr name).toList)

/-- `t.due_date and t.due_date <= d` — a datetime is always truthy, so the
left conjunct is presence of the due date. -/
def hasDueLe (t : Task) (d : Int) : Bool :=
  match t.due_date with
  | some dd => decide (dd ≤ d)
  | none => false

/-- `t.due_date and t.due_date >= d`. -/
def hasDueGe (t : Task) (d : Int) : Bool :=
  match t.due_date with
  | some dd => decide (d ≤ dd)
  | none => false

/-- `Tasks.query`: the chain of generator filters, in source order.  `if
texts:` and Python truthiness make both `None` and the empty list skip the
text filter; a datetime is always truthy, so the due bounds apply exactly
when the argument is not `None`. -/
def Tasks.query (s : Tasks) (texts : Option (List String))
    (priority : Option Int) (due_before : Option Int) (due_after : Option Int)
    (completed : Option Bool) : List Task :=
  let r0 := s.tasks
  let r1 := match texts with
    | some l =>
        if l.isEmpty then r0
        else
          let lowers := l.map lowerStr
          r0.filter (fun t => lowers.any (fun sub => nameHas sub t.name))
    | none => r0
  let r2 := match priority with
    | some p =>
        if p = 1 ∨ p = 2 ∨ p = 3 then r1.filter (fun t => decide (t.priority = p))
        else r1
    | none => r1
  let r3 := match due_before with
    | some d => r2.filter (fun t => hasDueLe t d)
    | none => r2
  let r4 := match due_after with
    | some d => r3.filter (fun t => hasDueGe t d)
    | none => r3
  match completed with
  | some b => r4.filter (fun t => t.completed.isSome == b)
  | none => r4

/-- Sort key of the no-due group in `_sort_open`: the lexicographic order on
`(t.priority, t.created)`. -/
def noDueLe (a b : Task) : Prop :=
  a.priority < b.priority ∨ (a.priority = b.priority ∧ a.created ≤ b.created)

/-- Sort key of the with-due group in `_sort_open`: the lexicographic order on
`(t.due_date, t.priority, t.created)` (every task in that group has a due
date, so comparing the unwrapped stamp is faithful). -/
def dueLe (a b : Task) : Prop :=
  a.due_date.getD 0 < b.due_date.getD 0 ∨
    (a.due_date.getD 0 = b.due_date.getD 0 ∧ noDueLe a b)

instance : DecidableRel noDueLe :=
  fun a b => inferInstanceAs (Decidable (_ ∨ _))

instance : DecidableRel dueLe :=
  fun a b => inferInstanceAs (Decidable (_ ∨ _))

instance : IsTotal Task noDueLe :=
  ⟨fun a b => by unfold noDueLe; omega⟩

instance : IsTrans Task noDueLe :=
  ⟨fun a b c h1 h2 => by unfold noDueLe at *; omega⟩

instance : IsTotal Task dueLe :=
  ⟨fun a b => by unfold dueLe noDueLe; omega⟩

instance : IsTrans Task dueLe :=
  ⟨fun a b c h1 h2 => by unfold dueLe noDueLe at *; omega⟩

/-- `_sort_open`: split on presence of a due date, sort each part by its key,
emit the with-due part first. -/
def sort_open (tasks : List Task) : List Task :=
  let with_due := tasks.filter (fun t => t.due_date.isSome)
  let without_due := tasks.filter (fun t => !t.due_date.isSome)
  with_due.insertionSort dueLe ++ without_due.insertionSort noDueLe

/-- One store operation of a process lifetime, for the ID-monotonicity
claim: an `add` call (with its arguments and timestamp) or a `delete`
call. -/
inductive Op where
  | add (name : String) (priority : Int) (due_date : Option Int) (now : Int)
  | del (id : Nat)
deriving DecidableEq

/-- Observable identifier events of a run: `assigned i` when an `add`
returned a task with ID `i`, `deleted i` when a `delete i` found and
removed a task. -/
inductive Event where
  | assigned (id : Nat)
  | deleted (id : Nat)
deriving DecidableEq

/-- The ID carried by an event. -/
def Event.idOf : Event → Nat
  | .assigned i => i
  | .deleted i => i

/-- Run a sequence of operations against the store, recording the events in
order. -/
def runOps : Tasks → List Op → Tasks × List Event
  | s, [] => (s, [])
  | s, Op.add n p d t :: ops =>
      let r := s.add n p d t
      let rest := runOps r.1 ops
      (rest.1, Event.assigned r.2.unique_id :: rest.2)
  | s, Op.del id :: ops =>
      let r := s.delete id
      let rest := runOps r.1 ops
      (rest.1, (if r.2 then [Event.deleted id] else []) ++ rest.2)

/-- The ordering invariant of an event trace: every `assigned` event carries
an ID strictly greater than the ID of every earlier event (earlier
assignments and earlier deletions alike). -/
def EventLt (e1 e2 : Event) : Prop :=
  match e2 with
  | .assigned a => e1.idOf < a
  | .deleted _ => True

instance : DecidableRel EventLt := fun e1 e2 =>
  match e2 with
  | .assigned a => inferInstanceAs (Decidable (e1.idOf < a))
  | .deleted _ => inferInstanceAs (Decidable True)

/-- The IDs handed out by the `add` calls of a trace, in order. -/
def assignedIds (es : List Event) : List Nat :=
  es.filterMap (fun e =>
    match e with
    | .assigned i => some i
    | .deleted _ => none)

/-- Every task ID in the collection is below the counter — the reachable
store states all satisfy this. -/
def IdsBounded (s : Tasks) : Prop :=
  ∀ t ∈ s.tasks, t.unique_id < s.id_counter

instance (s : Tasks) : Decidable (IdsBounded s) :=
  inferInstanceAs (Decidable (∀ t ∈ s.tasks, t.unique_id < s.id_counter))

/-- Python-style datetime for the due-date parser: `ord` is the proleptic
Gregorian ordinal of the calendar date (`date.toordinal()`, day 1 =
0001-01-01, a Monday), plus the time-of-day fields. -/
structure PyDateTime where
  ord : Nat
  hour : Nat
  minute : Nat
  second : Nat
  microsecond : Nat
deriving DecidableEq

/-- Day of week of a proleptic-Gregorian ordinal: Monday is 0; ordinal 1
(0001-01-01) is a Monday. -/
def dayOfWeek (ordinal : Nat) : Nat := (ordinal + 6) % 7

/-- `datetime.weekday()`. -/
def PyDateTime.weekday (d : PyDateTime) : Nat := dayOfWeek d.ord

/-- `d + timedelta(days=n)`. -/
def PyDateTime.addDays (d : PyDateTime) (n : Nat) : PyDateTime :=
  { d with ord := d.ord + n }

/-- `d.replace(hour=23, minute=59, second=59, microsecond=0)`. -/
def PyDateTime.endOfDay (d : PyDateTime) : PyDateTime :=
  { d with hour := 23, minute := 59, second := 59, microsecond := 0 }

/-- The day offset computed by the weekday branch of `parse_due`:
`delta = (target - now.weekday()) % 7`, bumped to 7 when it is zero. -/
def weekdayDelta (now : PyDateTime) (target : Nat) : Nat :=
  let delta : Int := ((target : Int) - (now.weekday : Int)) % 7
  (if delta = 0 then 7 else delta).toNat

/-- Gregorian leap year, as `datetime` computes it. -/
def isLeap (y : Nat) : Bool :=
  decide ((y % 4 = 0 ∧ y % 100 ≠ 0) ∨ y % 400 = 0)

/-- Length of a month in the given year. -/
def daysInMonth (y m : Nat) : Nat :=
  if m = 2 then (if isLeap y then 29 else 28)
  else if m = 4 ∨ m = 6 ∨ m = 9 ∨ m = 11 then 30
  else 31

/-- Days in year `y` strictly before month `m`. -/
def daysBeforeMonth (y : Nat) : Nat → Nat
  | 0 => 0
  | 1 => 0
  | m + 1 => daysBeforeMonth y m + daysInMonth y m

/-- `date(y, m, d).toordinal()` in the proleptic Gregorian calendar. -/
def toordinal (y m d : Nat) : Nat :=
  365 * (y - 1) + (y - 1) / 4 - (y - 1) / 100 + (y - 1) / 400 +
    daysBeforeMonth y m + d

/-- The validation done by the `datetime(year, month, day)` constructor:
year within `MINYEAR..MAXYEAR`, month 1–12, day within the month. -/
def mkDate (y m d : Nat) : Option (Nat × Nat × Nat) :=
  if 1 ≤ y ∧ y ≤ 9999 ∧ 1 ≤ m ∧ m ≤ 12 ∧ 1 ≤ d ∧ d ≤ daysInMonth y m then
    some (y, m, d)
  else none

/-- Maximal run of leading decimal digits, and the rest. -/
def takeDigits : List Char → List Char × List Char
  | [] => ([], [])
  | c :: cs =>
      if c.isDigit then
        let p := takeDigits cs
        (c :: p.1, p.2)
      else ([], c :: cs)

/-- Numeric value of a digit run. -/
def digitsToNat (ds : List Char) : Nat :=
  ds.foldl (fun acc c => acc * 10 + (c.toNat - 48)) 0

/-- `datetime.strptime(raw, "%m/%d/%Y")`, after CPython's `_strptime`
regexes: `%m` is one or two digits valued 1–12, `%d` one or two digits
valued 1–31, `%Y` exactly four digits; the whole string must be consumed,
and the final `datetime(...)` construction validates the calendar day. -/
def strptime_mdY (raw : String) : Option (Nat × Nat × Nat) :=
  match takeDigits raw.toList with
  | (mds, '/' :: rest1) =>
    (match takeDigits rest1 with
    | (dds, '/' :: rest2) =>
      (match takeDigits rest2 with
      | (yds, []) =>
          if 1 ≤ mds.length ∧ mds.length ≤ 2 ∧
              1 ≤ digitsToNat mds ∧ digitsToNat mds ≤ 12 ∧
              1 ≤ dds.length ∧ dds.length ≤ 2 ∧
              1 ≤ digitsToNat dds ∧ digitsToNat dds ≤ 31 ∧
              yds.length = 4 then
            mkDate (digitsToNat yds) (digitsToNat mds) (digitsToNat dds)
          else none
      | _ => none)
    | _ => none)
  | _ => none

/-- The `%y` two-digit year pivot from `_strptime`: 00–68 map to 2000–2068,
69–99 to 1969–1999. -/
def expandYY (v : Nat) : Nat := if v ≤ 68 then 2000 + v else 1900 + v

/-- `datetime.strptime(raw, "%m/%d/%y")`: as `%m/%d/%Y` but the year is
exactly two digits, expanded through the `%y` pivot. -/
def strptime_mdy (raw : String) : Option (Nat × Nat × Nat) :=
  match takeDigits raw.toList with
  | (mds, '/' :: rest1) =>
    (match takeDigits rest1 with
    | (dds, '/' :: rest2) =>
      (match takeDigits rest2 with
      | (yds, []) =>
          if 1 ≤ mds.length ∧ mds.length ≤ 2 ∧
              1 ≤ digitsToNat mds ∧ digitsToNat mds ≤ 12 ∧
              1 ≤ dds.length ∧ dds.length ≤ 2 ∧
              1 ≤ digitsToNat dds ∧ digitsToNat dds ≤ 31 ∧
              yds.length = 2 then
            mkDate (expandYY (digitsToNat yds)) (digitsToNat mds) (digitsToNat dds)
          else none
      | _ => none)
    | _ => none)
  | _ => none

/-- `datetime.strptime(raw, "%Y-%m-%d")`: four-digit year, then month and
day as above, separated by hyphens. -/
def strptime_Ymd (raw : String) : Option (Nat × Nat × Nat) :=
  match takeDigits raw.toList with
  | (yds, '-' :: rest1) =>
    (match takeDigits rest1 with
    | (mds, '-' :: rest2) =>
      (match takeDigits rest2 with
      | (dds, []) =>
          if yds.length = 4 ∧
              1 ≤ mds.length ∧ mds.length ≤ 2 ∧
              1 ≤ digitsToNat mds ∧ digitsToNat mds ≤ 12 ∧
              1 ≤ dds.length ∧ dds.length ≤ 2 ∧
              1 ≤ digitsToNat dds ∧ digitsToNat dds ≤ 31 then
            mkDate (digitsToNat yds) (digitsToNat mds) (digitsToNat dds)
          else none
      | _ => none)
    | _ => none)
  | _ => none

/-- The lowered no-date tokens of `parse_due`. -/
def noneTokens : List String := ["none", "no", "na", "n/a", "-"]

/-- The weekday names of `parse_due`, Monday first (matching
`datetime.weekday()` numbering). -/
def weekdayNames : List String :=
  ["monday", "tuesday", "wednesday", "thursday", "friday", "saturday", "sunday"]

/-- A successful absolute-format parse: the date at midnight, no time. -/
def midnight (ymd : Nat × Nat × Nat) : PyDateTime :=
  ⟨toordinal ymd.1 ymd.2.1 ymd.2.2, 0, 0, 0, 0⟩

/-- `parse_due(raw)` with `now = datetime.now()`.  The failure case
(`ValueError`, which the spec names `InvalidDateError`) carries the
original input string.  Tokens are compared against `raw.strip().lower()`,
the absolute formats parse `raw` itself — both as in the source. -/
def parse_due (raw : Option String) (now : PyDateTime) :
    Except String (Option PyDateTime) :=
  match raw with
  | none => .ok none
  | some r =>
    if r = "" then .ok none
    else
      let s := lowerStr (stripStr r)
      if noneTokens.contains s then .ok none
      else if s = "today" then .ok (some now.endOfDay)
      else if s = "tomorrow" then .ok (some (now.addDays 1).endOfDay)
      else if weekdayNames.contains s then
        let target : Int := weekdayNames.indexOf s
        let delta : Int := (target - (now.weekday : Int)) % 7
        let delta2 : Int := if delta = 0 then 7 else delta
        .ok (some ((now.addDays delta2.toNat).endOfDay))
      else
        match strptime_mdY r with
        | some ymd => .ok (some (midnight ymd))
        | none =>
          match strptime_mdy r with
          | some ymd => .ok (some (midnight ymd))
          | none =>
            match strptime_Ymd r with
            | some ymd => .ok (some (midnight ymd))
            | none => .error r

instance {ε α : Type} [DecidableEq ε] [DecidableEq α] :
    DecidableEq (Except ε α) := fun x y =>
  match x, y with
  | .error e, .error f =>
      if h : e = f then isTrue (by rw [h])
      else isFalse (fun hh => h (Except.error.inj hh))
  | .ok a, .ok b =>
      if h : a = b then isTrue (by rw [h])
      else isFalse (fun hh => h (Except.ok.inj hh))
  | .error _, .ok _ => isFalse (fun hh => Except.noConfusion hh)
  | .ok _, .error _ => isFalse (fun hh => Except.noConfusion hh)

/-! ## Lemmas about the `done` loop -/

theorem doneAux_eq_none (ts : List Task) (id : Nat) (now : Int) :
    doneAux ts id now = none ↔ ∀ t ∈ ts, t.unique_id ≠ id := by
  induction ts with
  | nil => simp [doneAux]
  | cons t rest ih =>
      by_cases h : t.unique_id = id
      · rcases hc : t.completed with _ | c <;> simp [doneAux, h, hc]
      · simp [doneAux, h, ih, Option.map_eq_none]

theorem doneAux_mark (id : Nat) (now : Int) :
    ∀ (l1 : List Task) (t : Task) (l2 : List Task),
      (∀ u ∈ l1, u.unique_id ≠ id) → t.unique_id = id → t.completed = none →
      doneAux (l1 ++ t :: l2) id now =
        some (l1 ++ { t with completed := some now } :: l2, true) := by
  intro l1
  induction l1 with
  | nil => intro t l2 _ ht hc; simp [doneAux, ht, hc]
  | cons u l1 ih =>
      intro t l2 hl ht hc
      have hu : ¬ u.unique_id = id := hl u (by simp)
      simp only [List.cons_append, doneAux, if_neg hu, List.append_eq,
        ih t l2 (fun v hv => hl v (by simp [hv])) ht hc]
      rfl

theorem doneAux_skip (id : Nat) (now : Int) :
    ∀ (l1 : List Task) (t : Task) (l2 : List Task),
      (∀ u ∈ l1, u.unique_id ≠ id) → t.unique_id = id → t.completed ≠ none →
      doneAux (l1 ++ t :: l2) id now = some (l1 ++ t :: l2, false) := by
  intro l1
  induction l1 with
  | nil =>
      intro t l2 _ ht hc
      rcases hcc : t.completed with _ | c
      · exact absurd hcc hc
      · simp [doneAux, ht, hcc]
  | cons u l1 ih =>
      intro t l2 hl ht hc
      have hu : ¬ u.unique_id = id := hl u (by simp)
      simp only [List.cons_append, doneAux, if_neg hu, List.append_eq,
        ih t l2 (fun v hv => hl v (by simp [hv])) ht hc]
      rfl

theorem doneAux_twice (id : Nat) (t1 t2 : Int) :
    ∀ (ts ts' : List Task) (b : Bool),
      doneAux ts id t1 = some (ts', b) →
      doneAux ts' id t2 = some (ts', false) := by
  intro ts
  induction ts with
  | nil => intro ts' b h; simp [doneAux] at h
  | cons u rest ih =>
      intro ts' b h
      by_cases hu : u.unique_id = id
      · rcases hc : u.completed with _ | c
        · have hx : doneAux (u :: rest) id t1 =
              some (({ u with completed := some t1 }) :: rest, true) := by
            simp [doneAux, hu, hc]
          rw [hx] at h
          cases h
          simp [doneAux, hu]
        · have hx : doneAux (u :: rest) id t1 = some (u :: rest, false) := by
            simp [doneAux, hu, hc]
          rw [hx] at h
          cases h
          simp [doneAux, hu, hc]
      · rcases hrec : doneAux rest id t1 with _ | p
        · simp [doneAux, hu, hrec] at h
        · rcases p with ⟨ts2, b2⟩
          have hx : doneAux (u :: rest) id t1 = some (u :: ts2, b2) := by
            simp [doneAux, hu, hrec]
          rw [hx] at h
          cases h
          simp [doneAux, hu, ih _ _ hrec]

theorem doneAux_false (id : Nat) (t1 t2 : Int) :
    ∀ (ts ts' : List Task),
      doneAux ts id t1 = some (ts', false) →
      ts' = ts ∧ doneAux ts id t2 = some (ts, false) := by
  intro ts
  induction ts with
  | nil => intro ts' h; simp [doneAux] at h
  | cons u rest ih =>
      intro ts' h
      by_cases hu : u.unique_id = id
      · rcases hc : u.completed with _ | c
        · have hx : doneAux (u :: rest) id t1 =
              some (({ u with completed := some t1 }) :: rest, true) := by
            simp [doneAux, hu, hc]
          rw [hx] at h
          cases h
        · have hx : doneAux (u :: rest) id t1 = some (u :: rest, false) := by
            simp [doneAux, hu, hc]
          rw [hx] at h
          cases h
          exact ⟨rfl, by simp [doneAux, hu, hc]⟩
      · rcases hrec : doneAux rest id t1 with _ | p
        · simp [doneAux, hu, hrec] at h
        · rcases p with ⟨ts2, b2⟩
          have hx : doneAux (u :: rest) id t1 = some (u :: ts2, b2) := by
            simp [doneAux, hu, hrec]
          rw [hx] at h
          cases h
          rcases ih _ hrec with ⟨he, h2⟩
          subst he
          exact ⟨rfl, by simp [doneAux, hu, h2]⟩

/-- **C5** `complete(id)` returns true exactly when a task with that ID
exists; for the first matching task: if it is not yet completed the call
stamps it with the completion time and persists the new collection, and if
it is already completed the whole store state is left untouched (so no
persistence happens); consequently a second `complete` on the same ID
leaves the state — in particular the completed timestamp — exactly as the
first call left it. -/
theorem done_spec (s : Tasks) (id : Nat) (t1 t2 : Int) :
    ((s.done id t1).2 = true ↔ ∃ t ∈ s.tasks, t.unique_id = id)
  ∧ (∀ l1 t l2, s.tasks = l1 ++ t :: l2 → (∀ u ∈ l1, u.unique_id ≠ id) →
      t.unique_id = id → t.completed = none →
        (s.done id t1).1.tasks = l1 ++ { t with completed := some t1 } :: l2
        ∧ (s.done id t1).1.file =
            some ((s.done id t1).1.tasks, lastId (s.done id t1).1.tasks))
  ∧ (∀ l1 t l2, s.tasks = l1 ++ t :: l2 → (∀ u ∈ l1, u.unique_id ≠ id) →
      t.unique_id = id → t.completed ≠ none → (s.done id t1).1 = s)
  ∧ ((s.done id t1).1.done id t2).1 = (s.done id t1).1 := by
  refine ⟨?_, ?_, ?_, ?_⟩
  · rcases hr : doneAux s.tasks id t1 with _ | ⟨ts, b⟩
    · have hall := (doneAux_eq_none s.tasks id t1).mp hr
      simp only [Tasks.done, hr]
      simpa using hall
    · have hne : ∃ t ∈ s.tasks, t.unique_id = id := by
        by_contra hall
        push_neg at hall
        rw [(doneAux_eq_none s.tasks id t1).mpr hall] at hr
        exact Option.noConfusion hr
      cases b <;> simp [Tasks.done, hr, hne]
  · intro l1 t l2 hdec hl ht hc
    have hm := doneAux_mark id t1 l1 t l2 hl ht hc
    have hdone : s.done id t1 =
        (Tasks.pickle_tasks
          { s with tasks := l1 ++ { t with completed := some t1 } :: l2 },
          true) := by
      simp [Tasks.done, hdec, hm]
    rw [hdone]
    simp [Tasks.pickle_tasks]
  · intro l1 t l2 hdec hl ht hc
    have hm := doneAux_skip id t1 l1 t l2 hl ht hc
    have hdone : s.done id t1 = (s, true) := by
      simp [Tasks.done, hdec, hm]
    rw [hdone]
  · rcases hr : doneAux s.tasks id t1 with _ | ⟨ts, b⟩
    · have h2 : doneAux s.tasks id t2 = none :=
        (doneAux_eq_none s.tasks id t2).mpr ((doneAux_eq_none s.tasks id t1).mp hr)
      simp [Tasks.done, hr, h2]
    · cases b
      · rcases doneAux_false id t1 t2 s.tasks ts hr with ⟨he, h2⟩
        subst he
        simp [Tasks.done, hr, h2]
      · have h2 := doneAux_twice id t1 t2 s.tasks ts true hr
        simp [Tasks.done, hr, Tasks.pickle_tasks, h2]

/-- Witness for `done_spec` at a concrete store: one open task with ID 1. -/
theorem done_spec_witness :
    ((doneSample.done 1 5).2 = true ↔ ∃ t ∈ doneSample.tasks, t.unique_id = 1)
  ∧ (∀ l1 t l2, doneSample.tasks = l1 ++ t :: l2 →
      (∀ u ∈ l1, u.unique_id ≠ 1) → t.unique_id = 1 → t.completed = none →
        (doneSample.done 1 5).1.tasks = l1 ++ { t with completed := some 5 } :: l2
        ∧ (doneSample.done 1 5).1.file =
            some ((doneSample.done 1 5).1.tasks,
              lastId ((doneSample.done 1 5).1.tasks)))
  ∧ (∀ l1 t l2, doneSample.tasks = l1 ++ t :: l2 →
      (∀ u ∈ l1, u.unique_id ≠ 1) → t.unique_id = 1 → t.completed ≠ none →
        (doneSample.done 1 5).1 = doneSample)
  ∧ ((doneSample.done 1 5).1.done 1 9).1 = (doneSample.done 1 5).1 :=
  done_spec doneSample 1 5 9

/-- **C2** Every outcome of `add`, `delete` and `complete` either leaves the
whole prior store state unchanged or ends with the persisted record equal to
the snapshot of the (possibly mutated) in-memory collection — there is no
outcome in which the in-memory collection is mutated but the persisted
state is not updated (persistence itself is the in-model state update, as
the spec treats the storage collaborator as atomic and never failing;
`add` always mutates and persists, `delete` and `complete` persist exactly
when they mutate). -/
theorem store_ops_atomic (s : Tasks) (name : String) (p : Int)
    (due : Option Int) (now : Int) (id1 id2 : Nat) (tc : Int) :
    ((s.add name p due now).1.file =
        some ((s.add name p due now).1.tasks,
          lastId ((s.add name p due now).1.tasks)))
  ∧ ((s.delete id1).1 = s ∨
      (s.delete id1).1.file =
        some ((s.delete id1).1.tasks, lastId ((s.delete id1).1.tasks)))
  ∧ ((s.done id2 tc).1 = s ∨
      (s.done id2 tc).1.file =
        some ((s.done id2 tc).1.tasks, lastId ((s.done id2 tc).1.tasks))) := by
  refine ⟨by simp [Tasks.add, Tasks.pickle_tasks], ?_, ?_⟩
  · rcases hr : removeFirst s.tasks id1 with _ | ts
    · exact Or.inl (by simp [Tasks.delete, hr])
    · exact Or.inr (by simp [Tasks.delete, hr, Tasks.pickle_tasks])
  · rcases hr : doneAux s.tasks id2 tc with _ | ⟨ts, b⟩
    · exact Or.inl (by simp [Tasks.done, hr])
    · cases b
      · exact Or.inl (by simp [Tasks.done, hr])
      · exact Or.inr (by simp [Tasks.done, hr, Tasks.pickle_tasks])

/-- **C1 counterexample** The claim fails on the code: `pickle_tasks` saves
`max(t.unique_id for t in tasks, default=0)` — the highest ID *currently
present*, not the highest ID *assigned*.  Starting from a fresh store, after
`add "a"` (ID 1), `add "b"` (ID 2), `delete 2`, the in-memory next ID is 3;
saving and loading in a fresh process (whose `Task._id_counter` starts at 1)
yields next ID 2, not 3. -/
theorem save_load_counterexample :
    roundtripSample.id_counter = 3
  ∧ (loadFile (roundtripSample.pickle_tasks).file 1).2 = 2
  ∧ (loadFile (roundtripSample.pickle_tasks).file 1).2 ≠
      roundtripSample.id_counter := by
  decide

/-- **C1 amended** Saving and then loading reconstructs the task collection
exactly — identical IDs, names, priorities, created/completed/due stamps —
given the store's invariant that the collection is sorted by creation time;
the next-ID counter after the load is the *maximum of the loading process's
current counter and one plus the highest ID present in the saved
collection*.  In particular a reload in the same process (where the counter
exceeds every saved ID) preserves the next ID; but a fresh-process load
after the task holding the highest ID was deleted yields a smaller next ID
than before the round trip. -/
theorem save_load_roundtrip (s : Tasks) (c0 : Nat)
    (hsorted : List.Pairwise createdLe s.tasks) :
    loadFile (s.pickle_tasks).file c0 = (s.tasks, max c0 (lastId s.tasks + 1))
  ∧ (lastId s.tasks < s.id_counter →
      loadFile (s.pickle_tasks).file s.id_counter = (s.tasks, s.id_counter)) := by
  have hs : sortByCreated s.tasks = s.tasks :=
    List.Sorted.insertionSort_eq hsorted
  constructor
  · simp [Tasks.pickle_tasks, loadFile, hs]
  · intro h
    simp [Tasks.pickle_tasks, loadFile, hs, Nat.max_eq_left (by omega : lastId s.tasks + 1 ≤ s.id_counter)]

/-- Witness for `save_load_roundtrip` at the concrete post-delete store. -/
theorem save_load_roundtrip_witness :
    List.Pairwise createdLe roundtripSample.tasks
  ∧ (loadFile (roundtripSample.pickle_tasks).file 1 =
      (roundtripSample.tasks, max 1 (lastId roundtripSample.tasks + 1))
    ∧ (lastId roundtripSample.tasks < roundtripSample.id_counter →
        loadFile (roundtripSample.pickle_tasks).file roundtripSample.id_counter =
          (roundtripSample.tasks, roundtripSample.id_counter))) :=
  ⟨by decide, save_load_roundtrip roundtripSample 1 (by decide)⟩

/-- **C3 counterexample** `reset` removes the persisted record, but the
`atexit`-registered save still runs at normal process exit and re-creates a
record `([], 0)`: after a normal exit following `reset`, the persisted
record exists (an empty one) rather than having been removed. -/
theorem reset_exit_counterexample :
    ((Tasks.init none 1).reset.file = none)
  ∧ (atExitSave ((Tasks.init none 1).reset)).file = some ([], 0)
  ∧ (atExitSave ((Tasks.init none 1).reset)).file ≠ none := by
  decide

/-- **C3 amended** `reset()` clears the in-memory collection, resets the ID
counter to 1, and removes the persisted record at the moment of the call;
a subsequent load (in a fresh process, counter 1) behaves as if the store
had never been used — empty collection, next ID 1.  When the process exits
normally after the reset, however, the exit-time autosave re-creates a
persisted record holding the empty collection and last ID 0; a load of
that record still yields an empty collection and next ID 1. -/
theorem reset_spec (s : Tasks) :
    (s.reset.tasks = [] ∧ s.reset.id_counter = 1 ∧ s.reset.file = none)
  ∧ loadFile s.reset.file 1 = ([], 1)
  ∧ (atExitSave s.reset).file = some ([], 0)
  ∧ loadFile (atExitSave s.reset).file 1 = ([], 1) :=
  ⟨⟨rfl, rfl, rfl⟩, rfl, rfl, rfl⟩

/-! ## ID monotonicity across add/delete sequences -/

theorem mem_sortByCreated {t : Task} {ts : List Task} :
    t ∈ sortByCreated ts ↔ t ∈ ts :=
  (List.perm_insertionSort createdLe ts).mem_iff

theorem removeFirst_sub (id : Nat) :
    ∀ ts ts', removeFirst ts id = some ts' → ∀ t ∈ ts', t ∈ ts := by
  intro ts
  induction ts with
  | nil => intro ts' h; simp [removeFirst] at h
  | cons u rest ih =>
      intro ts' h t ht
      by_cases hu : u.unique_id = id
      · have hx : removeFirst (u :: rest) id = some rest := by
          simp [removeFirst, hu]
        rw [hx] at h
        cases h
        exact List.mem_cons_of_mem _ ht
      · rcases hrec : removeFirst rest id with _ | ts2
        · simp [removeFirst, hu, hrec] at h
        · have hx : removeFirst (u :: rest) id = some (u :: ts2) := by
            simp [removeFirst, hu, hrec]
          rw [hx] at h
          cases h
          rcases List.mem_cons.mp ht with h1 | h2
          · exact h1 ▸ List.mem_cons_self u rest
          · exact List.mem_cons_of_mem _ (ih _ hrec t h2)

theorem removeFirst_found (id : Nat) :
    ∀ ts ts', removeFirst ts id = some ts' →
      ∃ t ∈ ts, t.unique_id = id := by
  intro ts
  induction ts with
  | nil => intro ts' h; simp [removeFirst] at h
  | cons u rest ih =>
      intro ts' h
      by_cases hu : u.unique_id = id
      · exact ⟨u, List.mem_cons_self u rest, hu⟩
      · rcases hrec : removeFirst rest id with _ | ts2
        · simp [removeFirst, hu, hrec] at h
        · rcases ih _ hrec with ⟨t, ht, hid⟩
          exact ⟨t, List.mem_cons_of_mem _ ht, hid⟩

theorem delete_id_counter (s : Tasks) (id : Nat) :
    ((s.delete id).1).id_counter = s.id_counter := by
  rcases h : removeFirst s.tasks id with _ | ts <;>
    simp [Tasks.delete, h, Tasks.pickle_tasks]

theorem delete_inv (s : Tasks) (id : Nat) (h : IdsBounded s) :
    IdsBounded (s.delete id).1 := by
  intro t ht
  rw [delete_id_counter]
  rcases hr : removeFirst s.tasks id with _ | ts
  · simp only [Tasks.delete, hr] at ht
    exact h t ht
  · have he : (s.delete id).1.tasks = ts := by
      simp [Tasks.delete, hr, Tasks.pickle_tasks]
    rw [he] at ht
    exact h t (removeFirst_sub id _ _ hr t ht)

theorem add_inv (s : Tasks) (n : String) (p : Int) (d : Option Int)
    (now : Int) (h : IdsBounded s) : IdsBounded (s.add n p d now).1 := by
  intro t ht
  have htasks : (s.add n p d now).1.tasks =
      sortByCreated (s.tasks ++ [Task.init s.id_counter n p d now]) := rfl
  have hcount : (s.add n p d now).1.id_counter = s.id_counter + 1 := rfl
  rw [htasks] at ht
  rw [hcount]
  rcases List.mem_append.mp (mem_sortByCreated.mp ht) with h1 | h2
  · exact Nat.lt_succ_of_lt (h t h1)
  · rcases List.mem_singleton.mp h2 with h3
    rw [h3]
    exact Nat.lt_succ_self _

theorem runOps_assigned_lb :
    ∀ (ops : List Op) (s : Tasks) (a : Nat),
      Event.assigned a ∈ (runOps s ops).2 → s.id_counter ≤ a := by
  intro ops
  induction ops with
  | nil => intro s a h; simp [runOps] at h
  | cons op ops ih =>
      intro s a h
      cases op with
      | add n p d t =>
          simp only [runOps] at h
          rcases List.mem_cons.mp h with h1 | h2
          · have h3 : a = (s.add n p d t).2.unique_id := Event.assigned.inj h1
            have h4 : (s.add n p d t).2.unique_id = s.id_counter := rfl
            omega
          · have h5 := ih _ _ h2
            have h6 : (s.add n p d t).1.id_counter = s.id_counter + 1 := rfl
            omega
      | del id =>
          simp only [runOps] at h
          rcases List.mem_append.mp h with h1 | h2
          · rcases hb : (s.delete id).2 <;> rw [hb] at h1 <;> simp at h1
          · have h5 := ih _ _ h2
            rw [delete_id_counter] at h5
            exact h5

theorem runOps_pairwise :
    ∀ (ops : List Op) (s : Tasks), IdsBounded s →
      ((runOps s ops).2).Pairwise EventLt := by
  intro ops
  induction ops with
  | nil => intro s _; simp [runOps]
  | cons op ops ih =>
      intro s hinv
      cases op with
      | add n p d t =>
          simp only [runOps]
          refine List.Pairwise.cons ?_ (ih _ (add_inv s n p d t hinv))
          intro e' he'
          cases e' with
          | assigned a =>
              have h5 := runOps_assigned_lb ops _ _ he'
              have h6 : (s.add n p d t).1.id_counter = s.id_counter + 1 := rfl
              have h4 : (s.add n p d t).2.unique_id = s.id_counter := rfl
              show Event.idOf (Event.assigned ((s.add n p d t).2.unique_id)) < a
              simp only [Event.idOf, h4]
              omega
          | deleted _ => trivial
      | del id =>
          simp only [runOps]
          rcases hb : (s.delete id).2
          · simpa using ih _ (delete_inv s id hinv)
          · simp only [List.singleton_append]
            refine List.Pairwise.cons ?_ (ih _ (delete_inv s id hinv))
            intro e' he'
            cases e' with
            | assigned a =>
                have h5 := runOps_assigned_lb ops _ _ he'
                rw [delete_id_counter] at h5
                have hfound : ∃ t ∈ s.tasks, t.unique_id = id := by
                  rcases hr : removeFirst s.tasks id with _ | ts
                  · rw [Tasks.delete, hr] at hb
                    simp at hb
                  · exact removeFirst_found id _ _ hr
                rcases hfound with ⟨u, hu, huid⟩
                have h7 := hinv u hu
                show Event.idOf (Event.deleted id) < a
                simp only [Event.idOf]
                omega
            | deleted _ => trivial

/-- **C4** Within one process lifetime, over every sequence of `add` calls
with arbitrarily interleaved `delete` calls (from any store state whose
IDs are all below the counter, as every reachable state is): the IDs
assigned by successive adds are strictly increasing — hence unique — and
an ID removed by a successful `delete` is strictly below every ID a later
`add` assigns, so a deleted ID is never assigned again. -/
theorem ids_strictly_increasing (s : Tasks) (ops : List Op)
    (hinv : IdsBounded s) :
    (assignedIds (runOps s ops).2).Pairwise (· < ·)
  ∧ ∀ l1 d l2, (runOps s ops).2 = l1 ++ Event.deleted d :: l2 →
      ∀ a, Event.assigned a ∈ l2 → d < a := by
  have hp := runOps_pairwise ops s hinv
  constructor
  · refine List.Pairwise.filterMap _ ?_ hp
    intro e1 e2 h12 b1 hb1 b2 hb2
    cases e1 <;> cases e2 <;> simp_all [EventLt, Event.idOf]
  · intro l1 d l2 hdec a ha
    rw [hdec] at hp
    have h1 := (List.pairwise_append.mp hp).2.1
    have h2 := (List.pairwise_cons.mp h1).1 _ ha
    simpa [EventLt, Event.idOf] using h2

/-- Witness for `ids_strictly_increasing`: fresh store, `add`, `add`,
`delete 2`, `add`. -/
theorem ids_strictly_increasing_witness :
    IdsBounded (Tasks.init none 1)
  ∧ ((assignedIds (runOps (Tasks.init none 1)
        [Op.add "a" 1 none 0, Op.add "b" 1 none 1, Op.del 2,
          Op.add "c" 1 none 2]).2).Pairwise (· < ·)
    ∧ ∀ l1 d l2,
        (runOps (Tasks.init none 1)
          [Op.add "a" 1 none 0, Op.add "b" 1 none 1, Op.del 2,
            Op.add "c" 1 none 2]).2 = l1 ++ Event.deleted d :: l2 →
        ∀ a, Event.assigned a ∈ l2 → d < a) :=
  ⟨by decide,
    ids_strictly_increasing (Tasks.init none 1)
      [Op.add "a" 1 none 0, Op.add "b" 1 none 1, Op.del 2, Op.add "c" 1 none 2]
      (by decide)⟩

/-! ## Query semantics -/

theorem hasDueLe_iff (t : Task) (d : Int) :
    hasDueLe t d = true ↔ ∃ dd, t.due_date = some dd ∧ dd ≤ d := by
  rcases h : t.due_date with _ | dd <;> simp [hasDueLe, h]

theorem hasDueGe_iff (t : Task) (d : Int) :
    hasDueGe t d = true ↔ ∃ dd, t.due_date = some dd ∧ d ≤ dd := by
  rcases h : t.due_date with _ | dd <;> simp [hasDueGe, h]

/-- **C6** `query` returns exactly the tasks satisfying the conjunction of
all provided filters: `texts` matches when any of the given substrings
occurs case-insensitively in the task name; `priority` matches by exact
value, values outside {1,2,3} imposing no constraint; `due_before` and
`due_after` exclude tasks without a due date and compare inclusively;
`completed` compares presence of the completed stamp with the boolean;
absent parameters impose no constraint.  (A present-but-empty `texts` list
is excluded by hypothesis: Python truthiness makes the code treat it like
an absent filter.) -/
theorem query_filters (s : Tasks) (texts : Option (List String))
    (priority : Option Int) (due_before due_after : Option Int)
    (completed : Option Bool) (t : Task)
    (htexts : texts ≠ some []) :
    t ∈ s.query texts priority due_before due_after completed ↔
      (t ∈ s.tasks
      ∧ (∀ l, texts = some l → ∃ sub ∈ l, nameHas (lowerStr sub) t.name = true)
      ∧ (∀ p, priority = some p → (p = 1 ∨ p = 2 ∨ p = 3) → t.priority = p)
      ∧ (∀ d, due_before = some d → ∃ dd, t.due_date = some dd ∧ dd ≤ d)
      ∧ (∀ d, due_after = some d → ∃ dd, t.due_date = some dd ∧ d ≤ dd)
      ∧ (∀ b, completed = some b → t.completed.isSome = b)) := by
  rcases texts with _ | l
  · rcases priority with _ | p
    · rcases due_before with _ | db2 <;> rcases due_after with _ | da2 <;>
        rcases completed with _ | b2 <;>
        simp [Tasks.query, List.mem_filter, hasDueLe_iff, hasDueGe_iff,
          and_assoc, and_comm, and_left_comm]
    · by_cases hp : p = 1 ∨ p = 2 ∨ p = 3 <;>
        rcases due_before with _ | db2 <;> rcases due_after with _ | da2 <;>
        rcases completed with _ | b2 <;>
        simp [Tasks.query, List.mem_filter, hasDueLe_iff, hasDueGe_iff, hp,
          and_assoc, and_comm, and_left_comm]
  · have hl : l.isEmpty = false := by
      rcases l with _ | ⟨x, xs⟩
      · exact absurd rfl htexts
      · rfl
    rcases priority with _ | p
    · rcases due_before with _ | db2 <;> rcases due_after with _ | da2 <;>
        rcases completed with _ | b2 <;>
        simp [Tasks.query, List.mem_filter, hasDueLe_iff, hasDueGe_iff, hl,
          List.any_eq_true, and_assoc, and_comm, and_left_comm]
    · by_cases hp : p = 1 ∨ p = 2 ∨ p = 3 <;>
        rcases due_before with _ | db2 <;> rcases due_after with _ | da2 <;>
        rcases completed with _ | b2 <;>
        simp [Tasks.query, List.mem_filter, hasDueLe_iff, hasDueGe_iff, hl, hp,
          List.any_eq_true, and_assoc, and_comm, and_left_comm]

/-- Witness for `query_filters`: the "Buy Milk" task against a conjunction
of all five filters. -/
theorem query_filters_witness :
    (some ["MILK"] ≠ some ([] : List String))
  ∧ ((⟨0, none, "Buy Milk", 1, 2, some 5⟩ : Task) ∈
        querySample.query (some ["MILK"]) (some 2) (some 7) (some 3)
          (some false) ↔
      ((⟨0, none, "Buy Milk", 1, 2, some 5⟩ : Task) ∈ querySample.tasks
      ∧ (∀ l, some ["MILK"] = some l → ∃ sub ∈ l,
          nameHas (lowerStr sub) (Task.name ⟨0, none, "Buy Milk", 1, 2, some 5⟩)
            = true)
      ∧ (∀ p, some (2 : Int) = some p → (p = 1 ∨ p = 2 ∨ p = 3) →
          Task.priority ⟨0, none, "Buy Milk", 1, 2, some 5⟩ = p)
      ∧ (∀ d, some (7 : Int) = some d → ∃ dd,
          Task.due_date ⟨0, none, "Buy Milk", 1, 2, some 5⟩ = some dd ∧ dd ≤ d)
      ∧ (∀ d, some (3 : Int) = some d → ∃ dd,
          Task.due_date ⟨0, none, "Buy Milk", 1, 2, some 5⟩ = some dd ∧ d ≤ dd)
      ∧ (∀ b, some false = some b →
          (Task.completed ⟨0, none, "Buy Milk", 1, 2, some 5⟩).isSome = b))) :=
  ⟨by decide,
    query_filters querySample (some ["MILK"]) (some 2) (some 7) (some 3)
      (some false) ⟨0, none, "Buy Milk", 1, 2, some 5⟩ (by decide)⟩

/-- **C10** The due-date bounds of `query` are inclusive: for a task with a
present due date, `due_before=d` selects it exactly when its due date is
`≤ d`, `due_after=d` exactly when its due date is `≥ d`; a task whose due
date equals `d` is returned by both filters. -/
theorem query_due_bounds (s : Tasks) (t : Task) (dd d : Int)
    (h : t.due_date = some dd) :
    (t ∈ s.query none none (some d) none none ↔ t ∈ s.tasks ∧ dd ≤ d)
  ∧ (t ∈ s.query none none none (some d) none ↔ t ∈ s.tasks ∧ d ≤ dd)
  ∧ (dd = d → t ∈ s.tasks →
      t ∈ s.query none none (some d) none none ∧
      t ∈ s.query none none none (some d) none) := by
  refine ⟨?_, ?_, ?_⟩
  · simp [Tasks.query, List.mem_filter, hasDueLe_iff, h]
  · simp [Tasks.query, List.mem_filter, hasDueGe_iff, h]
  · intro he hm
    subst he
    simp [Tasks.query, List.mem_filter, hasDueLe_iff, hasDueGe_iff, h, hm]

/-- Witness for `query_due_bounds` at the boundary `due_date = d = 5`. -/
theorem query_due_bounds_witness :
    (Task.due_date ⟨0, none, "Buy Milk", 1, 2, some 5⟩ = some 5)
  ∧ (((⟨0, none, "Buy Milk", 1, 2, some 5⟩ : Task) ∈
        querySample.query none none (some 5) none none ↔
        (⟨0, none, "Buy Milk", 1, 2, some 5⟩ : Task) ∈ querySample.tasks ∧
          (5 : Int) ≤ 5)
    ∧ ((⟨0, none, "Buy Milk", 1, 2, some 5⟩ : Task) ∈
        querySample.query none none none (some 5) none ↔
        (⟨0, none, "Buy Milk", 1, 2, some 5⟩ : Task) ∈ querySample.tasks ∧
          (5 : Int) ≤ 5)
    ∧ ((5 : Int) = 5 →
        (⟨0, none, "Buy Milk", 1, 2, some 5⟩ : Task) ∈ querySample.tasks →
        (⟨0, none, "Buy Milk", 1, 2, some 5⟩ : Task) ∈
            querySample.query none none (some 5) none none ∧
          (⟨0, none, "Buy Milk", 1, 2, some 5⟩ : Task) ∈
            querySample.query none none none (some 5) none)) :=
  ⟨rfl, query_due_bounds querySample ⟨0, none, "Buy Milk", 1, 2, some 5⟩ 5 5 rfl⟩

/-- **C9** `sort_for_display` partitions its input into the tasks with a due
date and those without; the with-due group is sorted by (due date,
priority, created) lexicographically ascending, the no-due group by
(priority, created); the output is the with-due group followed by the
no-due group.  The function is pure — it builds new lists and leaves the
input (and hence the store state) untouched. -/
theorem sort_open_spec (tasks : List Task) :
    ∃ A B, sort_open tasks = A ++ B
      ∧ A.Perm (tasks.filter (fun t => t.due_date.isSome))
      ∧ B.Perm (tasks.filter (fun t => !t.due_date.isSome))
      ∧ List.Sorted dueLe A ∧ List.Sorted noDueLe B := by
  refine ⟨(tasks.filter (fun t => t.due_date.isSome)).insertionSort dueLe,
    (tasks.filter (fun t => !t.due_date.isSome)).insertionSort noDueLe,
    ?_, List.perm_insertionSort _ _, List.perm_insertionSort _ _,
    List.sorted_insertionSort _ _, List.sorted_insertionSort _ _⟩
  rfl

/-! ## Weekday parsing -/

theorem weekdayDelta_props (now : PyDateTime) (target : Nat)
    (ht : target < 7) :
    (1 ≤ weekdayDelta now target ∧ weekdayDelta now target ≤ 7)
    ∧ dayOfWeek (now.ord + weekdayDelta now target) = target
    ∧ (∀ k, now.ord < k → k < now.ord + weekdayDelta now target →
        dayOfWeek k ≠ target)
    ∧ (now.weekday = target → weekdayDelta now target = 7) := by
  have h : (((target : Int) - (((now.ord + 6) % 7 : Nat) : Int)) % 7 = 0 ∧
        weekdayDelta now target = 7)
      ∨ (((target : Int) - (((now.ord + 6) % 7 : Nat) : Int)) % 7 ≠ 0 ∧
        weekdayDelta now target =
          (((target : Int) - (((now.ord + 6) % 7 : Nat) : Int)) % 7).toNat) := by
    simp only [weekdayDelta, PyDateTime.weekday, dayOfWeek]
    split
    · exact Or.inl ⟨by assumption, rfl⟩
    · exact Or.inr ⟨by assumption, rfl⟩
  simp only [PyDateTime.weekday, dayOfWeek]
  rcases h with ⟨h0, h⟩ | ⟨h0, h⟩ <;>
    refine ⟨⟨?_, ?_⟩, ?_, fun k h1 h2 => ?_, fun hw => ?_⟩ <;> omega

/-- **C7** Parsing a weekday name (any letter case, with surrounding
whitespace stripped) yields the next occurrence of that weekday strictly
after today at 23:59:59 local time: the result is at most 7 days out, its
weekday is the requested one, no strictly earlier day after today has that
weekday, and when today already is that weekday the result is exactly 7
days later — never today. -/
theorem parse_due_weekday (r : String) (now : PyDateTime) (target : Nat)
    (hmem : lowerStr (stripStr r) ∈ weekdayNames)
    (hidx : weekdayNames.indexOf (lowerStr (stripStr r)) = target) :
    ∃ d : PyDateTime, parse_due (some r) now = .ok (some d)
      ∧ d.hour = 23 ∧ d.minute = 59 ∧ d.second = 59 ∧ d.microsecond = 0
      ∧ now.ord < d.ord ∧ d.ord ≤ now.ord + 7
      ∧ d.weekday = target
      ∧ (∀ k, now.ord < k → k < d.ord → dayOfWeek k ≠ target)
      ∧ (now.weekday = target → d.ord = now.ord + 7) := by
  have hmem2 := hmem
  simp only [weekdayNames, List.mem_cons, List.not_mem_nil, or_false] at hmem2
  have hr : r ≠ "" := by
    intro he
    rw [he] at hmem
    revert hmem
    decide
  have hguards : noneTokens.contains (lowerStr (stripStr r)) = false
      ∧ lowerStr (stripStr r) ≠ "today"
      ∧ lowerStr (stripStr r) ≠ "tomorrow"
      ∧ weekdayNames.contains (lowerStr (stripStr r)) = true := by
    rcases hmem2 with h | h | h | h | h | h | h <;> rw [h] <;>
      exact ⟨rfl, by decide, by decide, rfl⟩
  have ht : target < 7 := by
    rw [← hidx]
    rcases hmem2 with h | h | h | h | h | h | h <;> rw [h] <;> decide
  have hpd : parse_due (some r) now =
      .ok (some ((now.addDays (weekdayDelta now target)).endOfDay)) := by
    simp only [parse_due]
    rw [if_neg hr, if_neg (by rw [hguards.1]; exact Bool.false_ne_true),
      if_neg hguards.2.1, if_neg hguards.2.2.1, if_pos hguards.2.2.2,
      hidx]
    rfl
  rcases weekdayDelta_props now target ht with ⟨⟨hd1, hd7⟩, hwd, hmin, hsame⟩
  refine ⟨(now.addDays (weekdayDelta now target)).endOfDay, hpd,
    rfl, rfl, rfl, rfl, ?_, ?_, ?_, ?_, ?_⟩
  · show now.ord < now.ord + weekdayDelta now target
    omega
  · show now.ord + weekdayDelta now target ≤ now.ord + 7
    omega
  · exact hwd
  · exact hmin
  · intro hw
    show now.ord + weekdayDelta now target = now.ord + 7
    rw [hsame hw]

/-- Witness for `parse_due_weekday`: parsing `"Monday"` when today is a
Monday (ordinal 1) gives the Monday seven days later. -/
theorem parse_due_weekday_witness :
    (lowerStr (stripStr "Monday") ∈ weekdayNames
      ∧ weekdayNames.indexOf (lowerStr (stripStr "Monday")) = 0)
  ∧ ∃ d : PyDateTime,
      parse_due (some "Monday") ⟨1, 10, 30, 0, 0⟩ = .ok (some d)
      ∧ d.hour = 23 ∧ d.minute = 59 ∧ d.second = 59 ∧ d.microsecond = 0
      ∧ (1 : Nat) < d.ord ∧ d.ord ≤ 1 + 7
      ∧ d.weekday = 0
      ∧ (∀ k, (1 : Nat) < k → k < d.ord → dayOfWeek k ≠ 0)
      ∧ (PyDateTime.weekday ⟨1, 10, 30, 0, 0⟩ = 0 → d.ord = 1 + 7) :=
  ⟨⟨by decide, by decide⟩,
    parse_due_weekday "Monday" ⟨1, 10, 30, 0, 0⟩ 0 (by decide) (by decide)⟩

/-! ## Absolute date formats and the failure case -/

/-- **C8** For input that is present, not a no-date token and not
today/tomorrow/a weekday name, `parse_due` tries `%m/%d/%Y`, `%m/%d/%y`,
`%Y-%m-%d` in that order on the raw string and returns the first successful
parse at midnight with no time component; when all three fail it fails
carrying the original input string — and (second half, over all inputs)
an error outcome happens only that way: the error value is the original
string and all three formats fail on it. -/
theorem parse_due_formats (r : String) (now : PyDateTime)
    (hne : r ≠ "")
    (htok : noneTokens.contains (lowerStr (stripStr r)) = false)
    (htoday : lowerStr (stripStr r) ≠ "today")
    (htom : lowerStr (stripStr r) ≠ "tomorrow")
    (hwd : weekdayNames.contains (lowerStr (stripStr r)) = false) :
    ((∀ ymd, strptime_mdY r = some ymd →
        parse_due (some r) now = .ok (some (midnight ymd)))
    ∧ (strptime_mdY r = none → ∀ ymd, strptime_mdy r = some ymd →
        parse_due (some r) now = .ok (some (midnight ymd)))
    ∧ (strptime_mdY r = none → strptime_mdy r = none →
        ∀ ymd, strptime_Ymd r = some ymd →
        parse_due (some r) now = .ok (some (midnight ymd)))
    ∧ (strptime_mdY r = none → strptime_mdy r = none → strptime_Ymd r = none →
        parse_due (some r) now = .error r)
    ∧ (∀ ymd, (midnight ymd).hour = 0 ∧ (midnight ymd).minute = 0 ∧
        (midnight ymd).second = 0 ∧ (midnight ymd).microsecond = 0))
  ∧ (∀ (raw : Option String) (nw : PyDateTime) (e : String),
      parse_due raw nw = .error e →
        raw = some e ∧ strptime_mdY e = none ∧ strptime_mdy e = none ∧
          strptime_Ymd e = none) := by
  have hred : parse_due (some r) now =
      (match strptime_mdY r with
      | some ymd => .ok (some (midnight ymd))
      | none =>
        match strptime_mdy r with
        | some ymd => .ok (some (midnight ymd))
        | none =>
          match strptime_Ymd r with
          | some ymd => .ok (some (midnight ymd))
          | none => .error r) := by
    simp only [parse_due]
    rw [if_neg hne, if_neg (by rw [htok]; exact Bool.false_ne_true),
      if_neg htoday, if_neg htom,
      if_neg (by rw [hwd]; exact Bool.false_ne_true)]
  refine ⟨⟨?_, ?_, ?_, ?_, fun ymd => ⟨rfl, rfl, rfl, rfl⟩⟩, ?_⟩
  · intro ymd hy
    rw [hred, hy]
  · intro hY ymd hy
    rw [hred, hY, hy]
  · intro hY hy2 ymd hy3
    rw [hred, hY, hy2, hy3]
  · intro hY hy2 hy3
    rw [hred, hY, hy2, hy3]
  · intro raw nw e h
    rcases raw with _ | r2
    · simp [parse_due] at h
    · by_cases h1 : r2 = ""
      · simp only [parse_due, if_pos h1] at h
        exact absurd h (by simp)
      · simp only [parse_due, if_neg h1] at h
        by_cases h2 : noneTokens.contains (lowerStr (stripStr r2)) = true
        · rw [if_pos h2] at h
          exact absurd h (by simp)
        · rw [if_neg h2] at h
          by_cases h3 : lowerStr (stripStr r2) = "today"
          · rw [if_pos h3] at h
            exact absurd h (by simp)
          · rw [if_neg h3] at h
            by_cases h4 : lowerStr (stripStr r2) = "tomorrow"
            · rw [if_pos h4] at h
              exact absurd h (by simp)
            · rw [if_neg h4] at h
              by_cases h5 : weekdayNames.contains (lowerStr (stripStr r2)) = true
              · rw [if_pos h5] at h
                exact absurd h (by simp)
              · rw [if_neg h5] at h
                rcases hY : strptime_mdY r2 with _ | ymd
                · rcases hy2 : strptime_mdy r2 with _ | ymd
                  · rcases hy3 : strptime_Ymd r2 with _ | ymd
                    · rw [hY, hy2, hy3] at h
                      have he : r2 = e := Except.error.inj h
                      subst he
                      exact ⟨rfl, hY, hy2, hy3⟩
                    · rw [hY, hy2, hy3] at h
                      exact absurd h (by simp)
                  · rw [hY, hy2] at h
                    exact absurd h (by simp)
                · rw [hY] at h
                  exact absurd h (by simp)

/-- Witness for `parse_due_formats` at `"12/31/99"` (a `%m/%d/%y` parse). -/
theorem parse_due_formats_witness :
    ("12/31/99" ≠ ""
      ∧ noneTokens.contains (lowerStr (stripStr "12/31/99")) = false
      ∧ lowerStr (stripStr "12/31/99") ≠ "today"
      ∧ lowerStr (stripStr "12/31/99") ≠ "tomorrow"
      ∧ weekdayNames.contains (lowerStr (stripStr "12/31/99")) = false)
  ∧ (((∀ ymd, strptime_mdY "12/31/99" = some ymd →
        parse_due (some "12/31/99") ⟨1, 0, 0, 0, 0⟩ = .ok (some (midnight ymd)))
    ∧ (strptime_mdY "12/31/99" = none → ∀ ymd,
        strptime_mdy "12/31/99" = some ymd →
        parse_due (some "12/31/99") ⟨1, 0, 0, 0, 0⟩ = .ok (some (midnight ymd)))
    ∧ (strptime_mdY "12/31/99" = none → strptime_mdy "12/31/99" = none →
        ∀ ymd, strptime_Ymd "12/31/99" = some ymd →
        parse_due (some "12/31/99") ⟨1, 0, 0, 0, 0⟩ = .ok (some (midnight ymd)))
    ∧ (strptime_mdY "12/31/99" = none → strptime_mdy "12/31/99" = none →
        strptime_Ymd "12/31/99" = none →
        parse_due (some "12/31/99") ⟨1, 0, 0, 0, 0⟩ = .error "12/31/99")
    ∧ (∀ ymd, (midnight ymd).hour = 0 ∧ (midnight ymd).minute = 0 ∧
        (midnight ymd).second = 0 ∧ (midnight ymd).microsecond = 0))
  ∧ (∀ (raw : Option String) (nw : PyDateTime) (e : String),
      parse_due raw nw = .error e →
        raw = some e ∧ strptime_mdY e = none ∧ strptime_mdy e = none ∧
          strptime_Ymd e = none)) :=
  ⟨⟨by decide, by decide, by decide, by decide, by decide⟩,
    parse_due_formats "12/31/99" ⟨1, 0, 0, 0, 0⟩ (by decide) (by decide)
      (by decide) (by decide) (by decide)⟩

end Todo
